import Mathlib

/-!
Verification of the Ukrainian dative-case name-declension engine of
`make_medals.py` (functions `dative_first_name`, `dative_patronymic`,
`dative_surname`, `guess_gender_from_patronymic`, `split_fullname`,
`to_dative_fullname`).

Python strings are embedded as `List Char`; the Python library operations
the engine uses (`str.lower`, `str.upper`, `str.capitalize`, `str.islower`
on a one-character string, `str.strip`, `str.split`, `str.join`,
`str.endswith`, slicing and negative indexing) are given explicit
definitions below, faithful on the ASCII and Cyrillic ranges this program
processes.
-/

/-- Model of Python `str.lower` on one character, for the ASCII range and the
Cyrillic block U+0400..U+042F (which covers every character this program's
rule tables mention); other characters are returned unchanged. -/
def pyLowerChar (c : Char) : Char :=
  if 65 ≤ c.toNat ∧ c.toNat ≤ 90 then Char.ofNat (c.toNat + 32)
  else if 0x410 ≤ c.toNat ∧ c.toNat ≤ 0x42F then Char.ofNat (c.toNat + 0x20)
  else if 0x400 ≤ c.toNat ∧ c.toNat ≤ 0x40F then Char.ofNat (c.toNat + 0x50)
  else c

/-- Model of Python `str.upper` on one character (inverse ranges of
`pyLowerChar`). -/
def pyUpperChar (c : Char) : Char :=
  if 97 ≤ c.toNat ∧ c.toNat ≤ 122 then Char.ofNat (c.toNat - 32)
  else if 0x430 ≤ c.toNat ∧ c.toNat ≤ 0x44F then Char.ofNat (c.toNat - 0x20)
  else if 0x450 ≤ c.toNat ∧ c.toNat ≤ 0x45F then Char.ofNat (c.toNat - 0x50)
  else c

/-- Model of Python `str.islower` on a one-character string: true exactly for
lowercase cased letters (ASCII `a`..`z` and Cyrillic U+0430..U+045F). -/
def pyIsLowerChar (c : Char) : Bool :=
  decide (97 ≤ c.toNat ∧ c.toNat ≤ 122) ||
  decide (0x430 ≤ c.toNat ∧ c.toNat ≤ 0x45F)

/-- Model of Python `str.lower` on a string. -/
def pyLower (s : List Char) : List Char := s.map pyLowerChar

/-- Model of Python `str.upper` on a string. -/
def pyUpper (s : List Char) : List Char := s.map pyUpperChar

/-- Model of Python `str.capitalize`: first character uppercased, the rest
lowercased. -/
def pyCapitalize (s : List Char) : List Char :=
  match s with
  | [] => []
  | c :: cs => pyUpperChar c :: cs.map pyLowerChar

/-- The characters Python `str.split` / `str.strip` treat as whitespace. -/
def pyWhitespaceChars : List Char :=
  [' ', '\t', '\n', '\r', Char.ofNat 0x0B, Char.ofNat 0x0C,
   Char.ofNat 0x1C, Char.ofNat 0x1D, Char.ofNat 0x1E, Char.ofNat 0x1F,
   Char.ofNat 0x85, Char.ofNat 0xA0, Char.ofNat 0x1680,
   Char.ofNat 0x2000, Char.ofNat 0x2001, Char.ofNat 0x2002,
   Char.ofNat 0x2003, Char.ofNat 0x2004, Char.ofNat 0x2005,
   Char.ofNat 0x2006, Char.ofNat 0x2007, Char.ofNat 0x2008,
   Char.ofNat 0x2009, Char.ofNat 0x200A, Char.ofNat 0x2028,
   Char.ofNat 0x2029, Char.ofNat 0x202F, Char.ofNat 0x205F,
   Char.ofNat 0x3000]

/-- Whether a character is Python whitespace. -/
def pyIsSpace (c : Char) : Bool := decide (c ∈ pyWhitespaceChars)

/-- Model of Python `str.strip()` (no argument): remove leading and trailing
whitespace. -/
def pyStrip (s : List Char) : List Char :=
  ((s.dropWhile pyIsSpace).reverse.dropWhile pyIsSpace).reverse

/-- Helper for `pySplit`: walk the string accumulating the current token
(reversed) in `acc`; whitespace flushes the token. -/
def pySplitAux : List Char → List Char → List (List Char)
  | [], acc => if acc.isEmpty then [] else [acc.reverse]
  | c :: cs, acc =>
    if pyIsSpace c then
      if acc.isEmpty then pySplitAux cs []
      else acc.reverse :: pySplitAux cs []
    else pySplitAux cs (c :: acc)

/-- Model of Python `str.split()` (no argument): split on runs of whitespace,
producing no empty tokens. -/
def pySplit (s : List Char) : List (List Char) := pySplitAux s []

/-- Model of Python `" ".join(out)`. -/
def pyJoinSpace : List (List Char) → List Char
  | [] => []
  | [t] => t
  | t :: ts => t ++ ' ' :: pyJoinSpace ts

/-- Model of Python `s.endswith(suf)`. -/
def pyEndsWith (s suf : List Char) : Bool := suf.isSuffixOf s

/-- Python truthiness of an `Optional[str]`: `None` and the empty string are
falsy. -/
def pyTruthy : Option (List Char) → Bool
  | none => false
  | some l => !l.isEmpty


/-! ## The declension engine (`make_medals.py`, lines 56–176) -/

/-- `VOWELS = set("аеєиіїоуюя")` from `make_medals.py`. -/
def VOWELS : List Char := "аеєиіїоуюя".data

/-- `_endswith_any(s, suffixes)` from `make_medals.py`: the first suffix of the
tuple that `s` ends with, else `None`. -/
def _endswith_any (s : List Char) (suffixes : List (List Char)) :
    Option (List Char) :=
  suffixes.find? (fun suf => pyEndsWith s suf)

/-- `_is_vowel(ch)` from `make_medals.py`: `ch.lower() in VOWELS`. -/
def _is_vowel (ch : Char) : Bool := decide (pyLowerChar ch ∈ VOWELS)

/-- `dative_first_name(name)` from `make_medals.py`, lines 70–90. -/
def dative_first_name (name : List Char) : List Char :=
  let n := pyStrip name
  let low := pyLower n
  if n.isEmpty then n
  else if pyEndsWith low "а".data then
    n.dropLast ++ (if pyIsLowerChar (n.getLastD ' ') then "і".data else "І".data)
  else if pyEndsWith low "я".data then
    n.dropLast ++ (if pyIsLowerChar (n.getLastD ' ') then "ї".data else "Ї".data)
  else if pyEndsWith low "й".data then
    n.dropLast ++ (if pyIsLowerChar (n.getLastD ' ') then "ю".data else "Ю".data)
  else if pyEndsWith low "о".data then
    n.dropLast ++
      (if pyIsLowerChar (n.getLastD ' ') then "ові".data
       else pyCapitalize "ові".data)
  else if !(_is_vowel (low.getLastD ' ')) || pyEndsWith low "ь".data then
    n ++
      (if pyIsLowerChar (n.getLastD ' ') then "ові".data
       else pyCapitalize "ові".data)
  else n

/-- The tuple `male_suf` local to `dative_patronymic` in `make_medals.py`. -/
def male_suf : List (List Char) :=
  ["ович".data, "йович".data, "евич".data, "льович".data, "євич".data]

/-- The tuple `fem_suf` local to `dative_patronymic` in `make_medals.py`
(the source lists `"ївна"` twice). -/
def fem_suf : List (List Char) :=
  ["івна".data, "ївна".data, "евна".data, "ївна".data, "євна".data]

/-- `dative_patronymic(p, gender)` from `make_medals.py`, lines 93–115. -/
def dative_patronymic (p : List Char) (gender : Option (List Char)) :
    List Char :=
  if p.isEmpty then []
  else
    let low := pyLower p
    if pyTruthy (_endswith_any low male_suf) then
      p ++ (if pyIsLowerChar (p.getLastD ' ') then "у".data else "У".data)
    else if pyTruthy (_endswith_any low fem_suf) then
      p.dropLast ++
        (if pyIsLowerChar (p.getLastD ' ') then "і".data else "І".data)
    else if gender = some "f".data then
      if pyEndsWith low "а".data then
        p.dropLast ++
          (if pyIsLowerChar (p.getLastD ' ') then "і".data else "І".data)
      else if pyEndsWith low "я".data then
        p.dropLast ++
          (if pyIsLowerChar (p.getLastD ' ') then "ї".data else "Ї".data)
      else p
    else if !(_is_vowel (low.getLastD ' ')) || pyEndsWith low "ь".data ||
        pyEndsWith low "й".data then
      p ++ (if pyIsLowerChar (p.getLastD ' ') then "у".data else pyUpper "у".data)
    else p

/-- `dative_surname(surname, gender)` from `make_medals.py`, lines 118–139
(the `gender` parameter is never read by the body). -/
def dative_surname (surname : List Char) (_gender : Option (List Char)) :
    List Char :=
  let s := pyStrip surname
  let low := pyLower s
  if s.isEmpty then s
  else if pyEndsWith low "енко".data then
    s.dropLast ++ (if pyIsLowerChar (s.getLastD ' ') then "у".data else "У".data)
  else if pyEndsWith low "ко".data then
    s.dropLast ++ (if pyIsLowerChar (s.getLastD ' ') then "у".data else "У".data)
  else if pyEndsWith low "о".data then
    s.dropLast ++ (if pyIsLowerChar (s.getLastD ' ') then "у".data else "У".data)
  else if pyEndsWith low "а".data then
    s.dropLast ++ (if pyIsLowerChar (s.getLastD ' ') then "і".data else "І".data)
  else if pyEndsWith low "я".data then
    s.dropLast ++ (if pyIsLowerChar (s.getLastD ' ') then "ї".data else "Ї".data)
  else if pyEndsWith low "й".data then
    s.dropLast ++ (if pyIsLowerChar (s.getLastD ' ') then "ю".data else "Ю".data)
  else if !(_is_vowel (low.getLastD ' ')) || pyEndsWith low "ь".data then
    s ++ (if pyIsLowerChar (s.getLastD ' ') then "у".data else pyUpper "у".data)
  else s

/-- `guess_gender_from_patronymic(p)` from `make_medals.py`, lines 142–150. -/
def guess_gender_from_patronymic (p : Option (List Char)) :
    Option (List Char) :=
  if !pyTruthy p then none
  else
    let w := p.getD []
    let low := pyLower w
    if pyEndsWith low "ович".data || pyEndsWith low "йович".data ||
        pyEndsWith low "евич".data || pyEndsWith low "льович".data ||
        pyEndsWith low "євич".data then some "m".data
    else if pyEndsWith low "івна".data || pyEndsWith low "ївна".data ||
        pyEndsWith low "евна".data || pyEndsWith low "євна".data then
      some "f".data
    else none

/-- `split_fullname(fullname)` from `make_medals.py`, lines 153–162. -/
def split_fullname (fullname : List Char) :
    Option (List Char) × Option (List Char) × Option (List Char) :=
  let parts := (pySplit (pyStrip fullname)).filter (fun p => !p.isEmpty)
  match parts with
  | [] => (none, none, none)
  | [a] => (none, some a, none)
  | [a, b] => (some a, some b, none)
  | a :: b :: c :: _ => (some a, some b, some c)

/-- The body of `to_dative_fullname(fullname)` from `make_medals.py`,
lines 165–176, up to the `print` / `return`: yields the list `out` of
inflected parts together with the split `(s, n, p)`. -/
def to_dative_fullname_core (fullname : List Char) :
    List (List Char) ×
      (Option (List Char) × Option (List Char) × Option (List Char)) :=
  let snp := split_fullname fullname
  let s := snp.1
  let n := snp.2.1
  let p := snp.2.2
  let gender := guess_gender_from_patronymic p
  let out :=
    (if pyTruthy s then [dative_surname (s.getD []) gender] else []) ++
    (if pyTruthy n then [dative_first_name (n.getD [])] else []) ++
    (if pyTruthy p then [dative_patronymic (p.getD []) gender] else [])
  (out, snp)

/-- `to_dative_fullname(fullname)` from `make_medals.py`, lines 165–176:
the returned value, `" ".join(out) if out else fullname`. -/
def to_dative_fullname (fullname : List Char) : List Char :=
  let core := to_dative_fullname_core fullname
  if !core.1.isEmpty then pyJoinSpace core.1 else fullname

/-- The observable output of one call to `to_dative_fullname`: the source
executes `print(out, s, n, p)` (line 175) unconditionally before returning,
so every call emits exactly one line carrying these four values. -/
def to_dative_fullname_print_trace (fullname : List Char) :
    List (List (List Char) ×
      (Option (List Char) × Option (List Char) × Option (List Char))) :=
  [to_dative_fullname_core fullname]

/-!
## Exception-aware variants

Python can raise only at the negative-index accesses `n[-1]` / `low[-1]`
(on an empty string) and at the list accesses `parts[0..2]`; every other
operation the engine uses is total.  The `...?` variants below thread each
such access through `Option`: a `none` result models an uncaught exception.
The totality claims are the statements that they always return `some`.
-/

/-- `dative_first_name` with every `[-1]` access modelled as fallible. -/
def dative_first_name? (name : List Char) : Option (List Char) :=
  let n := pyStrip name
  let low := pyLower n
  if n.isEmpty then some n
  else if pyEndsWith low "а".data then
    n.getLast?.map fun c =>
      n.dropLast ++ (if pyIsLowerChar c then "і".data else "І".data)
  else if pyEndsWith low "я".data then
    n.getLast?.map fun c =>
      n.dropLast ++ (if pyIsLowerChar c then "ї".data else "Ї".data)
  else if pyEndsWith low "й".data then
    n.getLast?.map fun c =>
      n.dropLast ++ (if pyIsLowerChar c then "ю".data else "Ю".data)
  else if pyEndsWith low "о".data then
    n.getLast?.map fun c =>
      n.dropLast ++
        (if pyIsLowerChar c then "ові".data else pyCapitalize "ові".data)
  else
    low.getLast?.bind fun lc =>
      if !(_is_vowel lc) || pyEndsWith low "ь".data then
        n.getLast?.map fun c =>
          n ++ (if pyIsLowerChar c then "ові".data else pyCapitalize "ові".data)
      else some n

/-- `dative_patronymic` with every `[-1]` access modelled as fallible. -/
def dative_patronymic? (p : List Char) (gender : Option (List Char)) :
    Option (List Char) :=
  if p.isEmpty then some []
  else
    let low := pyLower p
    if pyTruthy (_endswith_any low male_suf) then
      p.getLast?.map fun c =>
        p ++ (if pyIsLowerChar c then "у".data else "У".data)
    else if pyTruthy (_endswith_any low fem_suf) then
      p.getLast?.map fun c =>
        p.dropLast ++ (if pyIsLowerChar c then "і".data else "І".data)
    else if gender = some "f".data then
      if pyEndsWith low "а".data then
        p.getLast?.map fun c =>
          p.dropLast ++ (if pyIsLowerChar c then "і".data else "І".data)
      else if pyEndsWith low "я".data then
        p.getLast?.map fun c =>
          p.dropLast ++ (if pyIsLowerChar c then "ї".data else "Ї".data)
      else some p
    else
      low.getLast?.bind fun lc =>
        if !(_is_vowel lc) || pyEndsWith low "ь".data ||
            pyEndsWith low "й".data then
          p.getLast?.map fun c =>
            p ++ (if pyIsLowerChar c then "у".data else pyUpper "у".data)
        else some p

/-- `dative_surname` with every `[-1]` access modelled as fallible. -/
def dative_surname? (surname : List Char) (_gender : Option (List Char)) :
    Option (List Char) :=
  let s := pyStrip surname
  let low := pyLower s
  if s.isEmpty then some s
  else if pyEndsWith low "енко".data then
    s.getLast?.map fun c =>
      s.dropLast ++ (if pyIsLowerChar c then "у".data else "У".data)
  else if pyEndsWith low "ко".data then
    s.getLast?.map fun c =>
      s.dropLast ++ (if pyIsLowerChar c then "у".data else "У".data)
  else if pyEndsWith low "о".data then
    s.getLast?.map fun c =>
      s.dropLast ++ (if pyIsLowerChar c then "у".data else "У".data)
  else if pyEndsWith low "а".data then
    s.getLast?.map fun c =>
      s.dropLast ++ (if pyIsLowerChar c then "і".data else "І".data)
  else if pyEndsWith low "я".data then
    s.getLast?.map fun c =>
      s.dropLast ++ (if pyIsLowerChar c then "ї".data else "Ї".data)
  else if pyEndsWith low "й".data then
    s.getLast?.map fun c =>
      s.dropLast ++ (if pyIsLowerChar c then "ю".data else "Ю".data)
  else
    low.getLast?.bind fun lc =>
      if !(_is_vowel lc) || pyEndsWith low "ь".data then
        s.getLast?.map fun c =>
          s ++ (if pyIsLowerChar c then "у".data else pyUpper "у".data)
      else some s

/-- `split_fullname` with the accesses `parts[0]`, `parts[1]`, `parts[2]`
modelled as fallible. -/
def split_fullname? (fullname : List Char) :
    Option (Option (List Char) × Option (List Char) × Option (List Char)) :=
  let parts := (pySplit (pyStrip fullname)).filter (fun p => !p.isEmpty)
  if parts.isEmpty then some (none, none, none)
  else if parts.length = 1 then
    parts[0]?.map fun a => (none, some a, none)
  else if parts.length = 2 then
    parts[0]?.bind fun a => parts[1]?.map fun b => (some a, some b, none)
  else
    parts[0]?.bind fun a => parts[1]?.bind fun b =>
      parts[2]?.map fun c => (some a, some b, some c)

/-- `to_dative_fullname` with every fallible access modelled in `Option`. -/
def to_dative_fullname? (fullname : List Char) : Option (List Char) :=
  (split_fullname? fullname).bind fun snp =>
    let s := snp.1
    let n := snp.2.1
    let p := snp.2.2
    let gender := guess_gender_from_patronymic p
    (if pyTruthy s then (dative_surname? (s.getD []) gender).map ([·])
     else some []).bind fun outS =>
    (if pyTruthy n then (dative_first_name? (n.getD [])).map ([·])
     else some []).bind fun outN =>
    (if pyTruthy p then (dative_patronymic? (p.getD []) gender).map ([·])
     else some []).bind fun outP =>
    let out := outS ++ outN ++ outP
    some (if !out.isEmpty then pyJoinSpace out else fullname)

/-!
## Spec-side definitions

These follow the specification's words and are compared with the
definitions translated from the source.
-/

/-- The list of inflected parts that are present, in the order surname,
given name, patronymic (spec §4.4: the parts a correct output is the
space-join of). -/
def inflected_parts (fullname : List Char) : List (List Char) :=
  let snp := split_fullname fullname
  let gender := guess_gender_from_patronymic snp.2.2
  (snp.1.elim [] fun s => [dative_surname s gender]) ++
  (snp.2.1.elim [] fun n => [dative_first_name n]) ++
  (snp.2.2.elim [] fun p => [dative_patronymic p gender])

/-- Case-insensitive `endswith` (spec §4.2): both word and suffix are
lowercased before comparing. -/
def ciEndsWith (w suf : List Char) : Bool :=
  pyEndsWith (pyLower w) (pyLower suf)

/-- Whether an optional word case-insensitively ends with one of the listed
suffixes (`None` matches nothing). -/
def ciEndsWithAny (p : Option (List Char)) (sufs : List (List Char)) : Bool :=
  match p with
  | none => false
  | some w => sufs.any fun suf => ciEndsWith w suf

/-- The masculine patronymic suffix set of spec §4.2. -/
def masc_suffix_list : List (List Char) :=
  ["ович".data, "йович".data, "евич".data, "льович".data, "євич".data]

/-- The feminine patronymic suffix set of spec §4.2. -/
def fem_suffix_list : List (List Char) :=
  ["івна".data, "ївна".data, "евна".data, "євна".data]

/-- Case-preservation shape (spec §4.3): an inflection result either leaves the
word `w` unchanged, or consists of an unaltered prefix of `w` followed by a
suffix from the rule table whose casing mirrors the casing of the last
original character (lowercase last character → lowercase suffix, otherwise
the capitalized suffix). -/
def cased_result (w res : List Char) (pairs : List (List Char × List Char)) :
    Prop :=
  res = w ∨
  ∃ pre ls us, (ls, us) ∈ pairs ∧ (∃ rest, pre ++ rest = w) ∧
    res = pre ++ (if pyIsLowerChar (w.getLastD ' ') then ls else us)

/-- The (lowercase, capitalized) suffix pairs `dative_first_name` can attach. -/
def first_name_suffix_pairs : List (List Char × List Char) :=
  [("і".data, "І".data), ("ї".data, "Ї".data), ("ю".data, "Ю".data),
   ("ові".data, "Ові".data)]

/-- The (lowercase, capitalized) suffix pairs `dative_surname` can attach. -/
def surname_suffix_pairs : List (List Char × List Char) :=
  [("у".data, "У".data), ("і".data, "І".data), ("ї".data, "Ї".data),
   ("ю".data, "Ю".data)]

/-- The (lowercase, capitalized) suffix pairs `dative_patronymic` can
attach. -/
def patronymic_suffix_pairs : List (List Char × List Char) :=
  [("у".data, "У".data), ("і".data, "І".data), ("ї".data, "Ї".data)]

-- Sanity checks on the character-level models (examples, not claim theorems).
example : pyLowerChar 'А' = 'а' := by decide
example : pyLowerChar 'І' = 'і' := by decide
example : pyLowerChar 'Ї' = 'ї' := by decide
example : pyLowerChar 'Є' = 'є' := by decide
example : pyLowerChar 'Й' = 'й' := by decide
example : pyLowerChar 'Ь' = 'ь' := by decide
example : pyUpperChar 'у' = 'У' := by decide
example : pyCapitalize "ові".data = "Ові".data := by decide
example : pyIsLowerChar 'в' = true := by decide
example : pyIsLowerChar 'В' = false := by decide
example : pyStrip "  ab c ".data = "ab c".data := by decide
example : pySplit "  ab  c ".data = ["ab".data, "c".data] := by decide
example : pyJoinSpace ["ab".data, "c".data] = "ab c".data := by decide
example : pyEndsWith "Сергійович".data "ович".data = true := by decide

-- Sanity checks against hand-traced runs of the Python code.
example : dative_first_name "Денис".data = "Денисові".data := by decide
example : dative_first_name "Тетяна".data = "Тетяні".data := by decide
example : dative_surname "Гуров".data (some "m".data) = "Гурову".data := by decide
example : dative_surname "Шевченко".data (some "f".data) = "Шевченку".data := by
  decide
example : dative_patronymic "Сергійович".data (some "m".data) =
    "Сергійовичу".data := by decide
example : dative_patronymic "Іванівна".data (some "f".data) =
    "Іванівні".data := by decide
example : guess_gender_from_patronymic (some "Сергійович".data) =
    some "m".data := by decide
example : to_dative_fullname "Гуров Денис Сергійович".data =
    "Гурову Денисові Сергійовичу".data := by decide
example : to_dative_fullname "Шевченко Тетяна Іванівна".data =
    "Шевченку Тетяні Іванівні".data := by decide
example : to_dative_fullname "Олександр".data = "Олександрові".data := by decide
example : to_dative_fullname "".data = "".data := by decide
example : to_dative_fullname " ".data = " ".data := by decide

/-!
## Theorems
-/

/-- Claim C4: `to_dative_fullname` applied to `"Шевченко Тетяна Іванівна"`
returns exactly `"Шевченку Тетяні Іванівні"`: the surname "ко"-ending rule,
the given-name "а"→"і" rule and the feminine patronymic drop-"а"-append-"і"
rule all fire. -/
theorem C4_shevchenko_full_name :
    to_dative_fullname "Шевченко Тетяна Іванівна".data =
      "Шевченку Тетяні Іванівні".data := by decide

/-- Claim C3, counterexample: on the exact input `"Гуров Денис Сергійович"`
the engine does not return `"Гурову Денису Сергійовичу"` (the given name
"Денис" ends in a consonant, so `dative_first_name` appends "ові"). -/
theorem C3_not_denysu :
    to_dative_fullname "Гуров Денис Сергійович".data ≠
      "Гурову Денису Сергійовичу".data := by decide

/-- Claim C3, amended: `to_dative_fullname` applied to the exact input
`"Гуров Денис Сергійович"` returns exactly `"Гурову Денисові Сергійовичу"`. -/
theorem C3_gurov_full_name :
    to_dative_fullname "Гуров Денис Сергійович".data =
      "Гурову Денисові Сергійовичу".data := by decide

/-- Claim C10: the call is deterministic (the result is a function of the
argument alone — two calls on equal inputs return equal strings), but it is
not free of observable output: the source executes `print(out, s, n, p)` on
every call, so each call's print trace has exactly one entry; at the input
`"Гуров Денис Сергійович"` that printed entry is shown explicitly. -/
theorem C10_print_on_every_call :
    (∀ x y : List Char, x = y → to_dative_fullname x = to_dative_fullname y) ∧
    (∀ s : List Char, (to_dative_fullname_print_trace s).length = 1) ∧
    to_dative_fullname_print_trace "Гуров Денис Сергійович".data =
      [(["Гурову".data, "Денисові".data, "Сергійовичу".data],
        (some "Гуров".data, some "Денис".data, some "Сергійович".data))] :=
  ⟨fun _ _ h => by rw [h], fun _ => rfl, by decide⟩

/-- A nonempty list's `getLast?` is `some` of its `getLastD`. -/
theorem getLast?_eq_some_getLastD {l : List Char} (h : l ≠ []) :
    l.getLast? = some (l.getLastD ' ') := by
  cases hc : l.getLast? with
  | none => exact absurd (List.getLast?_eq_none_iff.mp hc) h
  | some c => simp [List.getLastD_eq_getLast?, hc]

/-- Every token `pySplitAux` produces from a whitespace-free accumulator is
nonempty and whitespace-free. -/
theorem pySplitAux_tokens_shape {l : List Char} :
    ∀ {acc : List Char}, (∀ c ∈ acc, pyIsSpace c = false) →
      ∀ t ∈ pySplitAux l acc, t ≠ [] ∧ ∀ c ∈ t, pyIsSpace c = false := by
  induction l with
  | nil =>
    intro acc hacc t ht
    by_cases hE : acc.isEmpty
    · simp [pySplitAux, hE] at ht
    · simp [pySplitAux, hE] at ht
      subst ht
      refine ⟨by simpa [List.isEmpty_eq_false] using hE, ?_⟩
      intro c hc
      exact hacc c (by simpa using hc)
  | cons c cs ih =>
    intro acc hacc t ht
    by_cases hsp : pyIsSpace c
    · by_cases hE : acc.isEmpty
      · simp only [pySplitAux, hsp, if_pos, hE, if_true] at ht
        exact ih (by simp) t ht
      · simp only [pySplitAux, hsp, if_pos, hE, if_false] at ht
        rcases List.mem_cons.mp ht with h1 | h2
        · subst h1
          refine ⟨by simpa [List.isEmpty_eq_false] using hE, ?_⟩
          intro x hx
          exact hacc x (by simpa using hx)
        · exact ih (by simp) t h2
    · simp only [pySplitAux, hsp, if_neg, Bool.false_eq_true, if_false] at ht
      refine ih ?_ t ht
      intro x hx
      rcases List.mem_cons.mp hx with h1 | h2
      · subst h1; simpa using hsp
      · exact hacc x h2

/-- Every token of `pySplit` is nonempty and whitespace-free. -/
theorem pySplit_tokens_shape {l : List Char} :
    ∀ t ∈ pySplit l, t ≠ [] ∧ ∀ c ∈ t, pyIsSpace c = false :=
  pySplitAux_tokens_shape (by simp)

/-- Dropping leading whitespace does not change the split. -/
theorem pySplitAux_dropWhile (l : List Char) :
    pySplitAux (l.dropWhile pyIsSpace) [] = pySplitAux l [] := by
  induction l with
  | nil => rfl
  | cons c cs ih =>
    by_cases h : pyIsSpace c
    · simpa [List.dropWhile_cons, h, pySplitAux] using ih
    · simp [List.dropWhile_cons, h]

/-- Splitting an all-whitespace string flushes only the accumulator. -/
theorem pySplitAux_all_space {v : List Char}
    (hv : ∀ c ∈ v, pyIsSpace c = true) (acc : List Char) :
    pySplitAux v acc = if acc.isEmpty then [] else [acc.reverse] := by
  induction v generalizing acc with
  | nil => rfl
  | cons c v ih =>
    have hc : pyIsSpace c = true := hv c (by simp)
    have hv' : ∀ x ∈ v, pyIsSpace x = true := fun x hx => hv x (by simp [hx])
    by_cases hE : acc.isEmpty
    · simp [pySplitAux, hc, hE, ih hv']
    · simp [pySplitAux, hc, hE, ih hv']

/-- Appending trailing whitespace does not change the split. -/
theorem pySplitAux_append_spaces {v : List Char}
    (hv : ∀ c ∈ v, pyIsSpace c = true) (u acc : List Char) :
    pySplitAux (u ++ v) acc = pySplitAux u acc := by
  induction u generalizing acc with
  | nil => simpa [pySplitAux] using pySplitAux_all_space hv acc
  | cons c u ih =>
    by_cases h : pyIsSpace c <;> simp [pySplitAux, h, ih]

/-- `str.strip` does not change `str.split`'s result. -/
theorem pySplit_strip (l : List Char) : pySplit (pyStrip l) = pySplit l := by
  unfold pySplit pyStrip
  have h1 : pySplitAux (l.dropWhile pyIsSpace) [] = pySplitAux l [] :=
    pySplitAux_dropWhile l
  set m := l.dropWhile pyIsSpace with hm
  have hdec : m = (m.reverse.dropWhile pyIsSpace).reverse ++
      (m.reverse.takeWhile pyIsSpace).reverse := by
    conv_lhs => rw [← List.reverse_reverse m,
      ← List.takeWhile_append_dropWhile (p := pyIsSpace) (l := m.reverse)]
    rw [List.reverse_append]
  have hsp : ∀ c ∈ (m.reverse.takeWhile pyIsSpace).reverse,
      pyIsSpace c = true := by
    intro c hc
    rw [List.mem_reverse] at hc
    exact List.mem_takeWhile_imp hc
  calc pySplitAux ((m.reverse.dropWhile pyIsSpace).reverse) []
      = pySplitAux ((m.reverse.dropWhile pyIsSpace).reverse ++
          (m.reverse.takeWhile pyIsSpace).reverse) [] :=
        (pySplitAux_append_spaces hsp _ _).symm
    _ = pySplitAux l [] := by rw [← hdec]; exact h1

/-- The source's `[p for p in ... if p]` filter keeps every split token. -/
theorem pySplit_filter_eq (l : List Char) :
    (pySplit l).filter (fun p => !p.isEmpty) = pySplit l := by
  rw [List.filter_eq_self]
  intro t ht
  simpa [List.isEmpty_eq_false] using (pySplit_tokens_shape t ht).1

/-- `pySplitAux` with a nonempty accumulator yields at least one token. -/
theorem pySplitAux_ne_nil {l : List Char} :
    ∀ {acc : List Char}, acc ≠ [] → pySplitAux l acc ≠ [] := by
  induction l with
  | nil => intro acc h; simp [pySplitAux, h]
  | cons c cs ih =>
    intro acc h
    by_cases hsp : pyIsSpace c
    · simp [pySplitAux, hsp, h]
    · simp only [pySplitAux, hsp, Bool.false_eq_true, if_false]
      exact ih (by simp)

/-- A string splits into no tokens exactly when it is all whitespace. -/
theorem pySplit_eq_nil_iff (l : List Char) :
    pySplit l = [] ↔ l.all pyIsSpace = true := by
  induction l with
  | nil => simp [pySplit, pySplitAux]
  | cons c cs ih =>
    by_cases hsp : pyIsSpace c
    · simpa [pySplit, pySplitAux, hsp] using ih
    · have h1 : pySplitAux cs [c] ≠ [] := pySplitAux_ne_nil (by simp)
      simp [pySplit, pySplitAux, hsp, h1]

/-- Consuming a whitespace-free token prepends it (reversed) to the
accumulator. -/
theorem pySplitAux_token {t : List Char}
    (ht : ∀ c ∈ t, pyIsSpace c = false) (r : List Char) :
    ∀ acc, pySplitAux (t ++ r) acc = pySplitAux r (t.reverse ++ acc) := by
  induction t with
  | nil => intro acc; simp
  | cons c t ih =>
    intro acc
    have hc := ht c (by simp)
    have ht' : ∀ x ∈ t, pyIsSpace x = false := fun x hx => ht x (by simp [hx])
    simp only [List.cons_append, pySplitAux, hc, Bool.false_eq_true, if_false,
      List.reverse_cons, List.append_assoc, List.singleton_append]
    exact ih ht' (c :: acc)

/-- Splitting the single-space join of nonempty whitespace-free tokens
recovers exactly those tokens. -/
theorem pySplit_join {ts : List (List Char)} (hne : ts ≠ [])
    (h : ∀ t ∈ ts, t ≠ [] ∧ ∀ c ∈ t, pyIsSpace c = false) :
    pySplit (pyJoinSpace ts) = ts := by
  induction ts with
  | nil => exact absurd rfl hne
  | cons t ts ih =>
    have h1 := (h t (by simp)).1
    have h2 := (h t (by simp)).2
    rcases ts with _ | ⟨u, ts'⟩
    · unfold pySplit
      rw [show pyJoinSpace [t] = t from rfl, ← List.append_nil t,
        pySplitAux_token h2 [] []]
      simp [pySplitAux, h1]
    · have hrec : pySplit (pyJoinSpace (u :: ts')) = u :: ts' :=
        ih (by simp) (fun x hx => h x (by simp [hx]))
      unfold pySplit at hrec ⊢
      rw [show pyJoinSpace (t :: u :: ts') = t ++ ' ' :: pyJoinSpace (u :: ts')
          from rfl, pySplitAux_token h2 _ []]
      have hsp : pyIsSpace ' ' = true := by decide
      simp [pySplitAux, hsp, h1, hrec]

/-- `split_fullname` in terms of the whitespace-delimited tokens of the raw
input: no tokens → all `none`; one token → given name only; two → surname and
given name; three or more → the first three tokens. -/
theorem split_fullname_eq_pySplit (f : List Char) :
    split_fullname f =
      match pySplit f with
      | [] => (none, none, none)
      | [a] => (none, some a, none)
      | [a, b] => (some a, some b, none)
      | a :: b :: c :: _ => (some a, some b, some c) := by
  unfold split_fullname
  rw [pySplit_strip, pySplit_filter_eq]

/-- The fallible-access version of `split_fullname` always succeeds, with the
same result. -/
theorem split_fullname?_eq (f : List Char) :
    split_fullname? f = some (split_fullname f) := by
  unfold split_fullname? split_fullname
  cases h : (pySplit (pyStrip f)).filter (fun p => !p.isEmpty) with
  | nil => simp
  | cons a l =>
    cases l with
    | nil => simp
    | cons b l' =>
      cases l' with
      | nil => simp
      | cons c l'' =>
        have hlen : (a :: b :: c :: l'').length = l''.length + 3 := by simp
        rw [if_neg (by simp), if_neg (by simp [hlen]), if_neg (by simp [hlen])]
        simp

/-- Each part `split_fullname` returns is either absent or a nonempty
token. -/
theorem split_fullname_parts_ne_nil (f : List Char) :
    (split_fullname f).1.elim True (fun t => t ≠ []) ∧
    (split_fullname f).2.1.elim True (fun t => t ≠ []) ∧
    (split_fullname f).2.2.elim True (fun t => t ≠ []) := by
  rw [split_fullname_eq_pySplit]
  have hall : ∀ t ∈ pySplit f, t ≠ [] := fun t ht =>
    (pySplit_tokens_shape t ht).1
  cases h : pySplit f with
  | nil => simp
  | cons a l =>
    have ha : a ≠ [] := hall a (by rw [h]; simp)
    cases l with
    | nil => simpa using ha
    | cons b l' =>
      have hb : b ≠ [] := hall b (by rw [h]; simp)
      cases l' with
      | nil => simp [ha, hb]
      | cons c l'' =>
        have hc : c ≠ [] := hall c (by rw [h]; simp)
        simp [ha, hb, hc]

/-- Claim C5: `split_fullname` returns all-`none` when the input has no
whitespace-delimited tokens (equivalently, is empty or all whitespace);
`(None, token, None)` for exactly one token; `(surname, given, None)` for two;
the first three tokens for three or more, discarding the rest; and it never
raises (the fallible-access variant always returns `some` of the same
value). -/
theorem C5_split_fullname_shape :
    ∀ f : List Char,
      split_fullname? f = some (split_fullname f) ∧
      (pySplit f = [] ↔ f.all pyIsSpace = true) ∧
      split_fullname f =
        match pySplit f with
        | [] => (none, none, none)
        | [a] => (none, some a, none)
        | [a, b] => (some a, some b, none)
        | a :: b :: c :: _ => (some a, some b, some c) :=
  fun f => ⟨split_fullname?_eq f, pySplit_eq_nil_iff f,
    split_fullname_eq_pySplit f⟩

/-- Claim C2, counterexample: on the whitespace-only input `" "` the engine
returns the input itself, not the single-space join of the (zero) inflected
parts that are present. -/
theorem C2_whitespace_output_not_join :
    to_dative_fullname " ".data ≠ pyJoinSpace (inflected_parts " ".data) := by
  decide

/-- Claim C2, amended: when at least one part is present after splitting, the
output is the single-space join of the inflected present parts (order:
surname, given name, patronymic); when no part is present (empty or
whitespace-only input) the engine returns the input string unchanged — in
particular the empty input yields the empty string. -/
theorem C2_join_of_parts_or_unchanged :
    ∀ f : List Char,
      to_dative_fullname f =
        if inflected_parts f = [] then f
        else pyJoinSpace (inflected_parts f) := by
  intro f
  have h := split_fullname_parts_ne_nil f
  unfold to_dative_fullname to_dative_fullname_core inflected_parts
  obtain ⟨h1, h2, h3⟩ := h
  rcases hs : (split_fullname f).1 with _ | s <;>
    rcases hn : (split_fullname f).2.1 with _ | n <;>
    rcases hp : (split_fullname f).2.2 with _ | p <;>
    rw [hs] at h1 <;> rw [hn] at h2 <;> rw [hp] at h3 <;>
    simp_all [pyTruthy, List.isEmpty_eq_false]

/-- A word that ends with a nonempty suffix has that suffix's last
character. -/
theorem pyEndsWith_last_of_ne {l s : List Char} (h : pyEndsWith l s = true)
    (hs : s ≠ []) : l.getLastD ' ' = s.getLastD ' ' := by
  have hsuf : s <:+ l := List.isSuffixOf_iff_suffix.mp h
  obtain ⟨t, rfl⟩ := hsuf
  rw [List.getLastD_eq_getLast?, List.getLastD_eq_getLast?,
    List.getLast?_append]
  cases hc : s.getLast? with
  | none => exact absurd (List.getLast?_eq_none_iff.mp hc) hs
  | some c => simp [hc]

/-- A word ending with a nonempty suffix is itself nonempty. -/
theorem ne_nil_of_pyEndsWith {l s : List Char} (h : pyEndsWith l s = true)
    (hs : s ≠ []) : l ≠ [] := by
  have hsuf : s <:+ l := List.isSuffixOf_iff_suffix.mp h
  obtain ⟨t, rfl⟩ := hsuf
  exact List.append_ne_nil_of_right_ne_nil t hs

/-- Lowercasing commutes with taking the last character (the default `' '` is
a fixed point of `pyLowerChar`). -/
theorem pyLower_getLastD (p : List Char) :
    (pyLower p).getLastD ' ' = pyLowerChar (p.getLastD ' ') := by
  have h : pyLowerChar ' ' = ' ' := by decide
  rw [pyLower, ← h, List.getLastD_map, h]

/-- `pyEndsWith` on a one-character suffix means: nonempty with that last
character. -/
theorem pyEndsWith_singleton {l : List Char} {c : Char} :
    pyEndsWith l [c] = true ↔ l ≠ [] ∧ l.getLastD ' ' = c := by
  constructor
  · intro h
    exact ⟨ne_nil_of_pyEndsWith h (by simp),
      by simpa using pyEndsWith_last_of_ne h (by simp)⟩
  · rintro ⟨h1, h2⟩
    subst h2
    have hg : l.getLastD ' ' = l.getLast h1 := by
      rw [List.getLastD_eq_getLast?, List.getLast?_eq_getLast l h1]
      rfl
    rw [pyEndsWith, List.isSuffixOf_iff_suffix]
    exact ⟨l.dropLast, by rw [hg]; exact List.dropLast_append_getLast h1⟩

/-- Claim C6: `guess_gender_from_patronymic` returns `"m"` exactly when the
patronymic case-insensitively ends with one of the masculine suffixes,
`"f"` exactly when it does not match a masculine suffix but case-insensitively
ends with one of the feminine suffixes, and `None` exactly when it matches
neither set (in particular for `None` and for the empty string, which match
nothing). -/
theorem C6_guess_gender_characterization :
    ∀ p : Option (List Char),
      (guess_gender_from_patronymic p = some "m".data ↔
        ciEndsWithAny p masc_suffix_list = true) ∧
      (guess_gender_from_patronymic p = some "f".data ↔
        (ciEndsWithAny p masc_suffix_list = false ∧
         ciEndsWithAny p fem_suffix_list = true)) ∧
      (guess_gender_from_patronymic p = none ↔
        (ciEndsWithAny p masc_suffix_list = false ∧
         ciEndsWithAny p fem_suffix_list = false)) := by
  intro p
  cases p with
  | none => simp [guess_gender_from_patronymic, ciEndsWithAny, pyTruthy]
  | some w =>
    by_cases hE : w.isEmpty
    · have hw : w = [] := by simpa using hE
      subst hw
      refine ⟨?_, ?_, ?_⟩ <;>
        simp [guess_gender_from_patronymic, ciEndsWithAny, pyTruthy,
          masc_suffix_list, fem_suffix_list, ciEndsWith, pyEndsWith, pyLower]
    · have hmset : ciEndsWithAny (some w) masc_suffix_list =
          (pyEndsWith (pyLower w) "ович".data ||
           pyEndsWith (pyLower w) "йович".data ||
           pyEndsWith (pyLower w) "евич".data ||
           pyEndsWith (pyLower w) "льович".data ||
           pyEndsWith (pyLower w) "євич".data) := by
        simp only [ciEndsWithAny, masc_suffix_list, ciEndsWith,
          show pyLower "ович".data = "ович".data from by decide,
          show pyLower "йович".data = "йович".data from by decide,
          show pyLower "евич".data = "евич".data from by decide,
          show pyLower "льович".data = "льович".data from by decide,
          show pyLower "євич".data = "євич".data from by decide,
          List.any_cons, List.any_nil, Bool.or_false, Bool.or_assoc]
      have hfset : ciEndsWithAny (some w) fem_suffix_list =
          (pyEndsWith (pyLower w) "івна".data ||
           pyEndsWith (pyLower w) "ївна".data ||
           pyEndsWith (pyLower w) "евна".data ||
           pyEndsWith (pyLower w) "євна".data) := by
        simp only [ciEndsWithAny, fem_suffix_list, ciEndsWith,
          show pyLower "івна".data = "івна".data from by decide,
          show pyLower "ївна".data = "ївна".data from by decide,
          show pyLower "евна".data = "евна".data from by decide,
          show pyLower "євна".data = "євна".data from by decide,
          List.any_cons, List.any_nil, Bool.or_false, Bool.or_assoc]
      rw [hmset, hfset]
      simp only [guess_gender_from_patronymic, pyTruthy, hE, Bool.not_false,
        Bool.false_eq_true, if_false, Option.getD_some]
      by_cases hA : (pyEndsWith (pyLower w) "ович".data ||
          pyEndsWith (pyLower w) "йович".data ||
          pyEndsWith (pyLower w) "евич".data ||
          pyEndsWith (pyLower w) "льович".data ||
          pyEndsWith (pyLower w) "євич".data) = true
      · simp [hA, show ("m".data : List Char) ≠ "f".data from by decide]
      · by_cases hB : (pyEndsWith (pyLower w) "івна".data ||
            pyEndsWith (pyLower w) "ївна".data ||
            pyEndsWith (pyLower w) "евна".data ||
            pyEndsWith (pyLower w) "євна".data) = true
        · simp [hA, hB, show ("m".data : List Char) ≠ "f".data from by decide]
        · simp [hA, hB]

/-- Claim C7, counterexample: the nonempty patronymic `"Іван"` matches no
masculine and no feminine patronymic suffix, yet with no gender hint
`dative_patronymic` does not return it unchanged — it appends `"у"`. -/
theorem C7_ivan_changed :
    (("Іван".data : List Char) ≠ []) ∧
    pyTruthy (_endswith_any (pyLower "Іван".data) male_suf) = false ∧
    pyTruthy (_endswith_any (pyLower "Іван".data) fem_suf) = false ∧
    dative_patronymic "Іван".data none = "Івану".data ∧
    dative_patronymic "Іван".data none ≠ "Іван".data := by decide

/-- Claim C7, amended: a nonempty patronymic that matches no masculine and no
feminine suffix, with no gender hint, is returned unchanged exactly when its
lowercased final character is a vowel; otherwise (consonant, soft sign or "й"
ending) the engine appends `"у"` (`"У"` when the final character is not
lowercase). -/
theorem C7_no_suffix_no_gender (p : List Char) (hne : p ≠ [])
    (hm : pyTruthy (_endswith_any (pyLower p) male_suf) = false)
    (hf : pyTruthy (_endswith_any (pyLower p) fem_suf) = false) :
    dative_patronymic p none =
      if _is_vowel ((pyLower p).getLastD ' ') then p
      else p ++ (if pyIsLowerChar (p.getLastD ' ') then "у".data
                 else "У".data) := by
  unfold dative_patronymic
  rw [if_neg (by simpa [List.isEmpty_eq_false] using hne)]
  simp only [hm, hf, Bool.false_eq_true, if_false,
    show (none : Option (List Char)) = some "f".data ↔ False from by simp,
    if_neg (by simp : ¬ (none : Option (List Char)) = some "f".data)]
  by_cases hv : _is_vowel ((pyLower p).getLastD ' ') = true
  · have hb : pyEndsWith (pyLower p) "ь".data = false := by
      by_contra hb
      have hb' : pyEndsWith (pyLower p) ['ь'] = true := by
        simpa using Bool.of_not_eq_false hb
      have := (pyEndsWith_singleton.mp hb').2
      rw [this] at hv
      exact absurd hv (by decide)
    have hj : pyEndsWith (pyLower p) "й".data = false := by
      by_contra hj
      have hj' : pyEndsWith (pyLower p) ['й'] = true := by
        simpa using Bool.of_not_eq_false hj
      have := (pyEndsWith_singleton.mp hj').2
      rw [this] at hv
      exact absurd hv (by decide)
    have hv2 : _is_vowel ((pyLower p).getLast?.getD ' ') = true := by
      simpa [List.getLastD_eq_getLast?] using hv
    simp [hv2, hb, hj, show pyUpper "у".data = "У".data from by decide]
  · have hv' : _is_vowel ((pyLower p).getLastD ' ') = false :=
      Bool.of_not_eq_true hv
    have hv2 : _is_vowel ((pyLower p).getLast?.getD ' ') = false := by
      simpa [List.getLastD_eq_getLast?] using hv'
    simp [hv2, show pyUpper "у".data = "У".data from by decide]

/-- Claim C7, witness: `"Ольга"` matches no suffix, has no gender hint, ends
in the vowel `"а"`, and is indeed returned unchanged. -/
theorem C7_no_suffix_no_gender_witness :
    dative_patronymic "Ольга".data none = "Ольга".data := by
  rw [C7_no_suffix_no_gender "Ольга".data (by decide) (by decide) (by decide)]
  decide

/-- A nonempty list is its `dropLast` followed by its last character. -/
theorem dropLast_append_getLastD {l : List Char} (h : l ≠ []) :
    l.dropLast ++ [l.getLastD ' '] = l := by
  have hg : l.getLastD ' ' = l.getLast h := by
    rw [List.getLastD_eq_getLast?, List.getLast?_eq_getLast l h]
    rfl
  rw [hg]
  exact List.dropLast_append_getLast h



theorem dropLast_append_exists (l : List Char) :
    ∃ rest, l.dropLast ++ rest = l := by
  by_cases h : l = []
  · exact ⟨[], by simp [h]⟩
  · exact ⟨[l.getLastD ' '], dropLast_append_getLastD h⟩

theorem dative_surname_eq (w : List Char) (g : Option (List Char)) :
    dative_surname w g =
      (if (pyStrip w).isEmpty then pyStrip w
       else if pyEndsWith (pyLower (pyStrip w)) "енко".data then
         (pyStrip w).dropLast ++
           (if pyIsLowerChar ((pyStrip w).getLastD ' ') then "у".data
            else "У".data)
       else if pyEndsWith (pyLower (pyStrip w)) "ко".data then
         (pyStrip w).dropLast ++
           (if pyIsLowerChar ((pyStrip w).getLastD ' ') then "у".data
            else "У".data)
       else if pyEndsWith (pyLower (pyStrip w)) "о".data then
         (pyStrip w).dropLast ++
           (if pyIsLowerChar ((pyStrip w).getLastD ' ') then "у".data
            else "У".data)
       else if pyEndsWith (pyLower (pyStrip w)) "а".data then
         (pyStrip w).dropLast ++
           (if pyIsLowerChar ((pyStrip w).getLastD ' ') then "і".data
            else "І".data)
       else if pyEndsWith (pyLower (pyStrip w)) "я".data then
         (pyStrip w).dropLast ++
           (if pyIsLowerChar ((pyStrip w).getLastD ' ') then "ї".data
            else "Ї".data)
       else if pyEndsWith (pyLower (pyStrip w)) "й".data then
         (pyStrip w).dropLast ++
           (if pyIsLowerChar ((pyStrip w).getLastD ' ') then "ю".data
            else "Ю".data)
       else if !(_is_vowel ((pyLower (pyStrip w)).getLastD ' ')) ||
           pyEndsWith (pyLower (pyStrip w)) "ь".data then
         pyStrip w ++
           (if pyIsLowerChar ((pyStrip w).getLastD ' ') then "у".data
            else pyUpper "у".data)
       else pyStrip w) := rfl

theorem dative_surname_cased (w : List Char) (g : Option (List Char)) :
    cased_result (pyStrip w) (dative_surname w g) surname_suffix_pairs := by
  unfold cased_result
  rw [dative_surname_eq]
  by_cases h1 : (pyStrip w).isEmpty = true
  · rw [if_pos h1]; exact Or.inl rfl
  rw [if_neg h1]
  by_cases h2 : pyEndsWith (pyLower (pyStrip w)) "енко".data = true
  · rw [if_pos h2]
    exact Or.inr ⟨(pyStrip w).dropLast, "у".data, "У".data, by decide,
      dropLast_append_exists _, rfl⟩
  rw [if_neg h2]
  by_cases h3 : pyEndsWith (pyLower (pyStrip w)) "ко".data = true
  · rw [if_pos h3]
    exact Or.inr ⟨(pyStrip w).dropLast, "у".data, "У".data, by decide,
      dropLast_append_exists _, rfl⟩
  rw [if_neg h3]
  by_cases h4 : pyEndsWith (pyLower (pyStrip w)) "о".data = true
  · rw [if_pos h4]
    exact Or.inr ⟨(pyStrip w).dropLast, "у".data, "У".data, by decide,
      dropLast_append_exists _, rfl⟩
  rw [if_neg h4]
  by_cases h5 : pyEndsWith (pyLower (pyStrip w)) "а".data = true
  · rw [if_pos h5]
    exact Or.inr ⟨(pyStrip w).dropLast, "і".data, "І".data, by decide,
      dropLast_append_exists _, rfl⟩
  rw [if_neg h5]
  by_cases h6 : pyEndsWith (pyLower (pyStrip w)) "я".data = true
  · rw [if_pos h6]
    exact Or.inr ⟨(pyStrip w).dropLast, "ї".data, "Ї".data, by decide,
      dropLast_append_exists _, rfl⟩
  rw [if_neg h6]
  by_cases h7 : pyEndsWith (pyLower (pyStrip w)) "й".data = true
  · rw [if_pos h7]
    exact Or.inr ⟨(pyStrip w).dropLast, "ю".data, "Ю".data, by decide,
      dropLast_append_exists _, rfl⟩
  rw [if_neg h7]
  by_cases h8 : (!(_is_vowel ((pyLower (pyStrip w)).getLastD ' ')) ||
      pyEndsWith (pyLower (pyStrip w)) "ь".data) = true
  · rw [if_pos h8, show pyUpper "у".data = "У".data from by decide]
    exact Or.inr ⟨pyStrip w, "у".data, "У".data, by decide,
      ⟨[], List.append_nil _⟩, rfl⟩
  rw [if_neg h8]
  exact Or.inl rfl

/-- `dative_first_name` with its local bindings unfolded. -/
theorem dative_first_name_eq (w : List Char) :
    dative_first_name w =
      (if (pyStrip w).isEmpty then pyStrip w
       else if pyEndsWith (pyLower (pyStrip w)) "а".data then
         (pyStrip w).dropLast ++
           (if pyIsLowerChar ((pyStrip w).getLastD ' ') then "і".data
            else "І".data)
       else if pyEndsWith (pyLower (pyStrip w)) "я".data then
         (pyStrip w).dropLast ++
           (if pyIsLowerChar ((pyStrip w).getLastD ' ') then "ї".data
            else "Ї".data)
       else if pyEndsWith (pyLower (pyStrip w)) "й".data then
         (pyStrip w).dropLast ++
           (if pyIsLowerChar ((pyStrip w).getLastD ' ') then "ю".data
            else "Ю".data)
       else if pyEndsWith (pyLower (pyStrip w)) "о".data then
         (pyStrip w).dropLast ++
           (if pyIsLowerChar ((pyStrip w).getLastD ' ') then "ові".data
            else pyCapitalize "ові".data)
       else if !(_is_vowel ((pyLower (pyStrip w)).getLastD ' ')) ||
           pyEndsWith (pyLower (pyStrip w)) "ь".data then
         pyStrip w ++
           (if pyIsLowerChar ((pyStrip w).getLastD ' ') then "ові".data
            else pyCapitalize "ові".data)
       else pyStrip w) := rfl

/-- `dative_first_name` always yields a `cased_result` shape. -/
theorem dative_first_name_cased (w : List Char) :
    cased_result (pyStrip w) (dative_first_name w) first_name_suffix_pairs := by
  unfold cased_result
  rw [dative_first_name_eq]
  by_cases h1 : (pyStrip w).isEmpty = true
  · rw [if_pos h1]; exact Or.inl rfl
  rw [if_neg h1]
  by_cases h2 : pyEndsWith (pyLower (pyStrip w)) "а".data = true
  · rw [if_pos h2]
    exact Or.inr ⟨(pyStrip w).dropLast, "і".data, "І".data, by decide,
      dropLast_append_exists _, rfl⟩
  rw [if_neg h2]
  by_cases h3 : pyEndsWith (pyLower (pyStrip w)) "я".data = true
  · rw [if_pos h3]
    exact Or.inr ⟨(pyStrip w).dropLast, "ї".data, "Ї".data, by decide,
      dropLast_append_exists _, rfl⟩
  rw [if_neg h3]
  by_cases h4 : pyEndsWith (pyLower (pyStrip w)) "й".data = true
  · rw [if_pos h4]
    exact Or.inr ⟨(pyStrip w).dropLast, "ю".data, "Ю".data, by decide,
      dropLast_append_exists _, rfl⟩
  rw [if_neg h4]
  by_cases h5 : pyEndsWith (pyLower (pyStrip w)) "о".data = true
  · rw [if_pos h5, show pyCapitalize "ові".data = "Ові".data from by decide]
    exact Or.inr ⟨(pyStrip w).dropLast, "ові".data, "Ові".data, by decide,
      dropLast_append_exists _, rfl⟩
  rw [if_neg h5]
  by_cases h6 : (!(_is_vowel ((pyLower (pyStrip w)).getLastD ' ')) ||
      pyEndsWith (pyLower (pyStrip w)) "ь".data) = true
  · rw [if_pos h6, show pyCapitalize "ові".data = "Ові".data from by decide]
    exact Or.inr ⟨pyStrip w, "ові".data, "Ові".data, by decide,
      ⟨[], List.append_nil _⟩, rfl⟩
  rw [if_neg h6]
  exact Or.inl rfl

/-- `dative_patronymic` with its local bindings unfolded. -/
theorem dative_patronymic_eq (p : List Char) (gender : Option (List Char)) :
    dative_patronymic p gender =
      (if p.isEmpty then []
       else if pyTruthy (_endswith_any (pyLower p) male_suf) then
         p ++ (if pyIsLowerChar (p.getLastD ' ') then "у".data else "У".data)
       else if pyTruthy (_endswith_any (pyLower p) fem_suf) then
         p.dropLast ++
           (if pyIsLowerChar (p.getLastD ' ') then "і".data else "І".data)
       else if gender = some "f".data then
         (if pyEndsWith (pyLower p) "а".data then
            p.dropLast ++
              (if pyIsLowerChar (p.getLastD ' ') then "і".data else "І".data)
          else if pyEndsWith (pyLower p) "я".data then
            p.dropLast ++
              (if pyIsLowerChar (p.getLastD ' ') then "ї".data else "Ї".data)
          else p)
       else if !(_is_vowel ((pyLower p).getLastD ' ')) ||
           pyEndsWith (pyLower p) "ь".data ||
           pyEndsWith (pyLower p) "й".data then
         p ++ (if pyIsLowerChar (p.getLastD ' ') then "у".data
               else pyUpper "у".data)
       else p) := rfl

/-- `dative_patronymic` always yields a `cased_result` shape. -/
theorem dative_patronymic_cased (p : List Char) (g : Option (List Char)) :
    cased_result p (dative_patronymic p g) patronymic_suffix_pairs := by
  unfold cased_result
  rw [dative_patronymic_eq]
  by_cases h1 : p.isEmpty = true
  · rw [if_pos h1]; exact Or.inl (List.isEmpty_iff.mp h1).symm
  rw [if_neg h1]
  by_cases h2 : pyTruthy (_endswith_any (pyLower p) male_suf) = true
  · rw [if_pos h2]
    exact Or.inr ⟨p, "у".data, "У".data, by decide,
      ⟨[], List.append_nil _⟩, rfl⟩
  rw [if_neg h2]
  by_cases h3 : pyTruthy (_endswith_any (pyLower p) fem_suf) = true
  · rw [if_pos h3]
    exact Or.inr ⟨p.dropLast, "і".data, "І".data, by decide,
      dropLast_append_exists _, rfl⟩
  rw [if_neg h3]
  by_cases h4 : g = some "f".data
  · rw [if_pos h4]
    by_cases h5 : pyEndsWith (pyLower p) "а".data = true
    · rw [if_pos h5]
      exact Or.inr ⟨p.dropLast, "і".data, "І".data, by decide,
        dropLast_append_exists _, rfl⟩
    rw [if_neg h5]
    by_cases h6 : pyEndsWith (pyLower p) "я".data = true
    · rw [if_pos h6]
      exact Or.inr ⟨p.dropLast, "ї".data, "Ї".data, by decide,
        dropLast_append_exists _, rfl⟩
    rw [if_neg h6]
    exact Or.inl rfl
  rw [if_neg h4]
  by_cases h7 : (!(_is_vowel ((pyLower p).getLastD ' ')) ||
      pyEndsWith (pyLower p) "ь".data || pyEndsWith (pyLower p) "й".data) = true
  · rw [if_pos h7, show pyUpper "у".data = "У".data from by decide]
    exact Or.inr ⟨p, "у".data, "У".data, by decide,
      ⟨[], List.append_nil _⟩, rfl⟩
  rw [if_neg h7]
  exact Or.inl rfl

/-- Claim C8: for every word (and gender hint), each of the three inflectors
returns either the (stripped) word unchanged, or an unaltered prefix of it
followed by a rule-table suffix whose casing mirrors the last original
character: a lowercase last character receives the all-lowercase suffix, a
non-lowercase (uppercase/titlecase) one the capitalized suffix; no other
character of the word is re-cased. -/
theorem C8_suffix_casing :
    ∀ (w : List Char) (g : Option (List Char)),
      cased_result (pyStrip w) (dative_first_name w)
        first_name_suffix_pairs ∧
      cased_result (pyStrip w) (dative_surname w g) surname_suffix_pairs ∧
      cased_result w (dative_patronymic w g) patronymic_suffix_pairs :=
  fun w g => ⟨dative_first_name_cased w, dative_surname_cased w g,
    dative_patronymic_cased w g⟩

theorem dative_first_name?_eq (w : List Char) :
    dative_first_name? w =
      (if (pyStrip w).isEmpty then some (pyStrip w)
       else if pyEndsWith (pyLower (pyStrip w)) "а".data then
         (pyStrip w).getLast?.map fun c =>
           (pyStrip w).dropLast ++
             (if pyIsLowerChar c then "і".data else "І".data)
       else if pyEndsWith (pyLower (pyStrip w)) "я".data then
         (pyStrip w).getLast?.map fun c =>
           (pyStrip w).dropLast ++
             (if pyIsLowerChar c then "ї".data else "Ї".data)
       else if pyEndsWith (pyLower (pyStrip w)) "й".data then
         (pyStrip w).getLast?.map fun c =>
           (pyStrip w).dropLast ++
             (if pyIsLowerChar c then "ю".data else "Ю".data)
       else if pyEndsWith (pyLower (pyStrip w)) "о".data then
         (pyStrip w).getLast?.map fun c =>
           (pyStrip w).dropLast ++
             (if pyIsLowerChar c then "ові".data else pyCapitalize "ові".data)
       else
         (pyLower (pyStrip w)).getLast?.bind fun lc =>
           if !(_is_vowel lc) || pyEndsWith (pyLower (pyStrip w)) "ь".data then
             (pyStrip w).getLast?.map fun c =>
               pyStrip w ++
                 (if pyIsLowerChar c then "ові".data
                  else pyCapitalize "ові".data)
           else some (pyStrip w)) := rfl

theorem dative_first_name_total (w : List Char) :
    dative_first_name? w = some (dative_first_name w) := by
  rw [dative_first_name?_eq, dative_first_name_eq]
  by_cases h1 : (pyStrip w).isEmpty = true
  · rw [if_pos h1, if_pos h1]
  rw [if_neg h1, if_neg h1]
  have hne : pyStrip w ≠ [] := by simpa using h1
  have hlow : pyLower (pyStrip w) ≠ [] := by
    simpa [pyLower] using hne
  have hg := getLast?_eq_some_getLastD hne
  have hgl := getLast?_eq_some_getLastD hlow
  by_cases h2 : pyEndsWith (pyLower (pyStrip w)) "а".data = true
  · rw [if_pos h2, if_pos h2, hg]
    rfl
  rw [if_neg h2, if_neg h2]
  by_cases h3 : pyEndsWith (pyLower (pyStrip w)) "я".data = true
  · rw [if_pos h3, if_pos h3, hg]
    rfl
  rw [if_neg h3, if_neg h3]
  by_cases h4 : pyEndsWith (pyLower (pyStrip w)) "й".data = true
  · rw [if_pos h4, if_pos h4, hg]
    rfl
  rw [if_neg h4, if_neg h4]
  by_cases h5 : pyEndsWith (pyLower (pyStrip w)) "о".data = true
  · rw [if_pos h5, if_pos h5, hg]
    rfl
  rw [if_neg h5, if_neg h5]
  rw [hgl]
  simp only [Option.some_bind]
  by_cases h6 : (!(_is_vowel ((pyLower (pyStrip w)).getLastD ' ')) ||
      pyEndsWith (pyLower (pyStrip w)) "ь".data) = true
  · rw [if_pos h6, if_pos h6, hg]
    rfl
  rw [if_neg h6, if_neg h6]

theorem dative_surname?_eq (w : List Char) (g : Option (List Char)) :
    dative_surname? w g =
      (if (pyStrip w).isEmpty then some (pyStrip w)
       else if pyEndsWith (pyLower (pyStrip w)) "енко".data then
         (pyStrip w).getLast?.map fun c =>
           (pyStrip w).dropLast ++
             (if pyIsLowerChar c then "у".data else "У".data)
       else if pyEndsWith (pyLower (pyStrip w)) "ко".data then
         (pyStrip w).getLast?.map fun c =>
           (pyStrip w).dropLast ++
             (if pyIsLowerChar c then "у".data else "У".data)
       else if pyEndsWith (pyLower (pyStrip w)) "о".data then
         (pyStrip w).getLast?.map fun c =>
           (pyStrip w).dropLast ++
             (if pyIsLowerChar c then "у".data else "У".data)
       else if pyEndsWith (pyLower (pyStrip w)) "а".data then
         (pyStrip w).getLast?.map fun c =>
           (pyStrip w).dropLast ++
             (if pyIsLowerChar c then "і".data else "І".data)
       else if pyEndsWith (pyLower (pyStrip w)) "я".data then
         (pyStrip w).getLast?.map fun c =>
           (pyStrip w).dropLast ++
             (if pyIsLowerChar c then "ї".data else "Ї".data)
       else if pyEndsWith (pyLower (pyStrip w)) "й".data then
         (pyStrip w).getLast?.map fun c =>
           (pyStrip w).dropLast ++
             (if pyIsLowerChar c then "ю".data else "Ю".data)
       else
         (pyLower (pyStrip w)).getLast?.bind fun lc =>
           if !(_is_vowel lc) || pyEndsWith (pyLower (pyStrip w)) "ь".data then
             (pyStrip w).getLast?.map fun c =>
               pyStrip w ++
                 (if pyIsLowerChar c then "у".data else pyUpper "у".data)
           else some (pyStrip w)) := rfl

theorem dative_surname_total (w : List Char) (g : Option (List Char)) :
    dative_surname? w g = some (dative_surname w g) := by
  rw [dative_surname?_eq, dative_surname_eq]
  by_cases h1 : (pyStrip w).isEmpty = true
  · rw [if_pos h1, if_pos h1]
  rw [if_neg h1, if_neg h1]
  have hne : pyStrip w ≠ [] := by simpa using h1
  have hlow : pyLower (pyStrip w) ≠ [] := by simpa [pyLower] using hne
  have hg := getLast?_eq_some_getLastD hne
  have hgl := getLast?_eq_some_getLastD hlow
  by_cases h2 : pyEndsWith (pyLower (pyStrip w)) "енко".data = true
  · rw [if_pos h2, if_pos h2, hg]
    rfl
  rw [if_neg h2, if_neg h2]
  by_cases h3 : pyEndsWith (pyLower (pyStrip w)) "ко".data = true
  · rw [if_pos h3, if_pos h3, hg]
    rfl
  rw [if_neg h3, if_neg h3]
  by_cases h4 : pyEndsWith (pyLower (pyStrip w)) "о".data = true
  · rw [if_pos h4, if_pos h4, hg]
    rfl
  rw [if_neg h4, if_neg h4]
  by_cases h5 : pyEndsWith (pyLower (pyStrip w)) "а".data = true
  · rw [if_pos h5, if_pos h5, hg]
    rfl
  rw [if_neg h5, if_neg h5]
  by_cases h6 : pyEndsWith (pyLower (pyStrip w)) "я".data = true
  · rw [if_pos h6, if_pos h6, hg]
    rfl
  rw [if_neg h6, if_neg h6]
  by_cases h7 : pyEndsWith (pyLower (pyStrip w)) "й".data = true
  · rw [if_pos h7, if_pos h7, hg]
    rfl
  rw [if_neg h7, if_neg h7]
  rw [hgl]
  simp only [Option.some_bind]
  by_cases h8 : (!(_is_vowel ((pyLower (pyStrip w)).getLastD ' ')) ||
      pyEndsWith (pyLower (pyStrip w)) "ь".data) = true
  · rw [if_pos h8, if_pos h8, hg]
    rfl
  rw [if_neg h8, if_neg h8]

theorem dative_patronymic?_eq (p : List Char) (gender : Option (List Char)) :
    dative_patronymic? p gender =
      (if p.isEmpty then some []
       else if pyTruthy (_endswith_any (pyLower p) male_suf) then
         p.getLast?.map fun c =>
           p ++ (if pyIsLowerChar c then "у".data else "У".data)
       else if pyTruthy (_endswith_any (pyLower p) fem_suf) then
         p.getLast?.map fun c =>
           p.dropLast ++ (if pyIsLowerChar c then "і".data else "І".data)
       else if gender = some "f".data then
         (if pyEndsWith (pyLower p) "а".data then
            p.getLast?.map fun c =>
              p.dropLast ++ (if pyIsLowerChar c then "і".data else "І".data)
          else if pyEndsWith (pyLower p) "я".data then
            p.getLast?.map fun c =>
              p.dropLast ++ (if pyIsLowerChar c then "ї".data else "Ї".data)
          else some p)
       else
         (pyLower p).getLast?.bind fun lc =>
           if !(_is_vowel lc) || pyEndsWith (pyLower p) "ь".data ||
               pyEndsWith (pyLower p) "й".data then
             p.getLast?.map fun c =>
               p ++ (if pyIsLowerChar c then "у".data else pyUpper "у".data)
           else some p) := rfl

theorem dative_patronymic_total (p : List Char) (g : Option (List Char)) :
    dative_patronymic? p g = some (dative_patronymic p g) := by
  rw [dative_patronymic?_eq, dative_patronymic_eq]
  by_cases h1 : p.isEmpty = true
  · rw [if_pos h1, if_pos h1]
  rw [if_neg h1, if_neg h1]
  have hne : p ≠ [] := by simpa using h1
  have hlow : pyLower p ≠ [] := by simpa [pyLower] using hne
  have hg := getLast?_eq_some_getLastD hne
  have hgl := getLast?_eq_some_getLastD hlow
  by_cases h2 : pyTruthy (_endswith_any (pyLower p) male_suf) = true
  · rw [if_pos h2, if_pos h2, hg]
    rfl
  rw [if_neg h2, if_neg h2]
  by_cases h3 : pyTruthy (_endswith_any (pyLower p) fem_suf) = true
  · rw [if_pos h3, if_pos h3, hg]
    rfl
  rw [if_neg h3, if_neg h3]
  by_cases h4 : g = some "f".data
  · rw [if_pos h4, if_pos h4]
    by_cases h5 : pyEndsWith (pyLower p) "а".data = true
    · rw [if_pos h5, if_pos h5, hg]
      rfl
    rw [if_neg h5, if_neg h5]
    by_cases h6 : pyEndsWith (pyLower p) "я".data = true
    · rw [if_pos h6, if_pos h6, hg]
      rfl
    rw [if_neg h6, if_neg h6]
  rw [if_neg h4, if_neg h4]
  rw [hgl]
  simp only [Option.some_bind]
  by_cases h7 : (!(_is_vowel ((pyLower p).getLastD ' ')) ||
      pyEndsWith (pyLower p) "ь".data || pyEndsWith (pyLower p) "й".data) = true
  · rw [if_pos h7, if_pos h7, hg]
    rfl
  rw [if_neg h7, if_neg h7]

theorem to_dative_fullname_total (f : List Char) :
    to_dative_fullname? f = some (to_dative_fullname f) := by
  unfold to_dative_fullname? to_dative_fullname to_dative_fullname_core
  rw [split_fullname?_eq]
  simp only [Option.some_bind]
  by_cases hs : pyTruthy (split_fullname f).1 = true <;>
    by_cases hn : pyTruthy (split_fullname f).2.1 = true <;>
      by_cases hp : pyTruthy (split_fullname f).2.2 = true <;>
        simp [hs, hn, hp, dative_first_name_total, dative_surname_total,
          dative_patronymic_total]

/-- Claim C1: `to_dative_fullname` is total — for every input string
(including the empty string, one-character strings and strings with no
recognizable suffix) the variant that models every fallible operation in
`Option` returns `some` of the same string the engine computes, i.e. no
uncaught exception is possible and a string is always returned. -/
theorem C1_engine_total :
    ∀ f : List Char, to_dative_fullname? f = some (to_dative_fullname f) :=
  to_dative_fullname_total

theorem dropWhile_of_head_not {l : List Char} {q : Char → Bool}
    (h : ∀ c ∈ l, q c = false) : l.dropWhile q = l := by
  cases l with
  | nil => rfl
  | cons a l => simp [List.dropWhile_cons, h a (by simp)]

theorem pyStrip_of_space_free {l : List Char}
    (h : ∀ c ∈ l, pyIsSpace c = false) : pyStrip l = l := by
  unfold pyStrip
  rw [dropWhile_of_head_not h,
    dropWhile_of_head_not (by intro c hc; exact h c (List.mem_reverse.mp hc)),
    List.reverse_reverse]

/-- The lowercased final characters every fired rule leaves behind; none of
them triggers any further rule. -/
def stable_finals : List Char := ['у', 'і', 'ї', 'ю']

theorem getLastD_append_of_ne {pre suf : List Char} (h : suf ≠ []) :
    (pre ++ suf).getLastD ' ' = suf.getLastD ' ' := by
  rw [List.getLastD_eq_getLast?, List.getLastD_eq_getLast?,
    List.getLast?_append]
  cases hc : suf.getLast? with
  | none => exact absurd (List.getLast?_eq_none_iff.mp hc) h
  | some c => simp [hc]

theorem dative_first_name_stable {x : List Char} (hne : x ≠ [])
    (hsf : ∀ c ∈ x, pyIsSpace c = false)
    (hst : pyLowerChar (x.getLastD ' ') ∈ stable_finals) :
    dative_first_name x = x := by
  have hstrip : pyStrip x = x := pyStrip_of_space_free hsf
  have hlowlast : (pyLower x).getLastD ' ' = pyLowerChar (x.getLastD ' ') :=
    pyLower_getLastD x
  have hB : ∀ s : List Char, s ≠ [] →
      pyLowerChar (x.getLastD ' ') ≠ s.getLastD ' ' →
      pyEndsWith (pyLower x) s = false := by
    intro s hs hc
    cases hb : pyEndsWith (pyLower x) s with
    | false => rfl
    | true =>
      exact absurd (by rw [← hlowlast]; exact pyEndsWith_last_of_ne hb hs) hc
  have hv : _is_vowel ((pyLower x).getLastD ' ') = true := by
    rw [hlowlast]
    simp only [stable_finals, List.mem_cons, List.not_mem_nil, or_false] at hst
    rcases hst with h | h | h | h <;> rw [h] <;> decide
  simp only [stable_finals, List.mem_cons, List.not_mem_nil, or_false] at hst
  rw [dative_first_name_eq, hstrip]
  rw [if_neg (by simpa using hne)]
  rw [if_neg (by rw [hB "а".data (by decide)
    (by rcases hst with h | h | h | h <;> rw [h] <;> decide)]; decide)]
  rw [if_neg (by rw [hB "я".data (by decide)
    (by rcases hst with h | h | h | h <;> rw [h] <;> decide)]; decide)]
  rw [if_neg (by rw [hB "й".data (by decide)
    (by rcases hst with h | h | h | h <;> rw [h] <;> decide)]; decide)]
  rw [if_neg (by rw [hB "о".data (by decide)
    (by rcases hst with h | h | h | h <;> rw [h] <;> decide)]; decide)]
  rw [if_neg (by rw [hv, hB "ь".data (by decide)
    (by rcases hst with h | h | h | h <;> rw [h] <;> decide)]; decide)]

theorem dative_surname_stable {x : List Char} (hne : x ≠ [])
    (hsf : ∀ c ∈ x, pyIsSpace c = false)
    (hst : pyLowerChar (x.getLastD ' ') ∈ stable_finals) :
    ∀ g : Option (List Char), dative_surname x g = x := by
  intro g
  have hstrip : pyStrip x = x := pyStrip_of_space_free hsf
  have hlowlast : (pyLower x).getLastD ' ' = pyLowerChar (x.getLastD ' ') :=
    pyLower_getLastD x
  have hB : ∀ s : List Char, s ≠ [] →
      pyLowerChar (x.getLastD ' ') ≠ s.getLastD ' ' →
      pyEndsWith (pyLower x) s = false := by
    intro s hs hc
    cases hb : pyEndsWith (pyLower x) s with
    | false => rfl
    | true =>
      exact absurd (by rw [← hlowlast]; exact pyEndsWith_last_of_ne hb hs) hc
  have hv : _is_vowel ((pyLower x).getLastD ' ') = true := by
    rw [hlowlast]
    simp only [stable_finals, List.mem_cons, List.not_mem_nil, or_false] at hst
    rcases hst with h | h | h | h <;> rw [h] <;> decide
  simp only [stable_finals, List.mem_cons, List.not_mem_nil, or_false] at hst
  rw [dative_surname_eq, hstrip]
  rw [if_neg (by simpa using hne)]
  rw [if_neg (by rw [hB "енко".data (by decide)
    (by rcases hst with h | h | h | h <;> rw [h] <;> decide)]; decide)]
  rw [if_neg (by rw [hB "ко".data (by decide)
    (by rcases hst with h | h | h | h <;> rw [h] <;> decide)]; decide)]
  rw [if_neg (by rw [hB "о".data (by decide)
    (by rcases hst with h | h | h | h <;> rw [h] <;> decide)]; decide)]
  rw [if_neg (by rw [hB "а".data (by decide)
    (by rcases hst with h | h | h | h <;> rw [h] <;> decide)]; decide)]
  rw [if_neg (by rw [hB "я".data (by decide)
    (by rcases hst with h | h | h | h <;> rw [h] <;> decide)]; decide)]
  rw [if_neg (by rw [hB "й".data (by decide)
    (by rcases hst with h | h | h | h <;> rw [h] <;> decide)]; decide)]
  rw [if_neg (by rw [hv, hB "ь".data (by decide)
    (by rcases hst with h | h | h | h <;> rw [h] <;> decide)]; decide)]

theorem dative_patronymic_stable {x : List Char} (hne : x ≠ [])
    (_hsf : ∀ c ∈ x, pyIsSpace c = false)
    (hst : pyLowerChar (x.getLastD ' ') ∈ stable_finals) :
    ∀ g : Option (List Char), dative_patronymic x g = x := by
  intro g
  have hlowlast : (pyLower x).getLastD ' ' = pyLowerChar (x.getLastD ' ') :=
    pyLower_getLastD x
  have hB : ∀ s : List Char, s ≠ [] →
      pyLowerChar (x.getLastD ' ') ≠ s.getLastD ' ' →
      pyEndsWith (pyLower x) s = false := by
    intro s hs hc
    cases hb : pyEndsWith (pyLower x) s with
    | false => rfl
    | true =>
      exact absurd (by rw [← hlowlast]; exact pyEndsWith_last_of_ne hb hs) hc
  have hv : _is_vowel ((pyLower x).getLastD ' ') = true := by
    rw [hlowlast]
    simp only [stable_finals, List.mem_cons, List.not_mem_nil, or_false] at hst
    rcases hst with h | h | h | h <;> rw [h] <;> decide
  have hq : ∀ c : Char, c ∉ stable_finals →
      pyLowerChar (x.getLastD ' ') ≠ c := by
    intro c hc heq
    rw [heq] at hst
    exact hc hst
  simp only [stable_finals, List.mem_cons, List.not_mem_nil, or_false] at hst
  have hmale : _endswith_any (pyLower x) male_suf = none := by
    rw [_endswith_any, List.find?_eq_none]
    intro s hs
    simp only [male_suf, List.mem_cons, List.not_mem_nil, or_false] at hs
    rcases hs with h | h | h | h | h
    · subst h; simp [hB "ович".data (by decide) (hq _ (by decide))]
    · subst h; simp [hB "йович".data (by decide) (hq _ (by decide))]
    · subst h; simp [hB "евич".data (by decide) (hq _ (by decide))]
    · subst h; simp [hB "льович".data (by decide) (hq _ (by decide))]
    · subst h; simp [hB "євич".data (by decide) (hq _ (by decide))]
  have hfem : _endswith_any (pyLower x) fem_suf = none := by
    rw [_endswith_any, List.find?_eq_none]
    intro s hs
    simp only [fem_suf, List.mem_cons, List.not_mem_nil, or_false] at hs
    rcases hs with h | h | h | h | h
    · subst h; simp [hB "івна".data (by decide) (hq _ (by decide))]
    · subst h; simp [hB "ївна".data (by decide) (hq _ (by decide))]
    · subst h; simp [hB "евна".data (by decide) (hq _ (by decide))]
    · subst h; simp [hB "ївна".data (by decide) (hq _ (by decide))]
    · subst h; simp [hB "євна".data (by decide) (hq _ (by decide))]
  rw [dative_patronymic_eq]
  rw [if_neg (by simpa using hne)]
  rw [if_neg (by rw [hmale]; decide)]
  rw [if_neg (by rw [hfem]; decide)]
  by_cases hgf : g = some "f".data
  · rw [if_pos hgf]
    rw [if_neg (by rw [hB "а".data (by decide)
      (by rcases hst with h | h | h | h <;> rw [h] <;> decide)]; decide)]
    rw [if_neg (by rw [hB "я".data (by decide)
      (by rcases hst with h | h | h | h <;> rw [h] <;> decide)]; decide)]
  · rw [if_neg hgf]
    rw [if_neg (by rw [hv, hB "ь".data (by decide)
      (by rcases hst with h | h | h | h <;> rw [h] <;> decide),
      hB "й".data (by decide)
      (by rcases hst with h | h | h | h <;> rw [h] <;> decide)]; decide)]

theorem token_facts_of_cased {w res : List Char}
    {pairs : List (List Char × List Char)} (hwne : w ≠ [])
    (hwsf : ∀ c ∈ w, pyIsSpace c = false) (hres : cased_result w res pairs)
    (hpairs : ∀ pr ∈ pairs, pr.1 ≠ [] ∧ pr.2 ≠ [] ∧
      (∀ ch ∈ pr.1, pyIsSpace ch = false) ∧
      (∀ ch ∈ pr.2, pyIsSpace ch = false) ∧
      pyLowerChar (pr.1.getLastD ' ') ∈ stable_finals ∧
      pyLowerChar (pr.2.getLastD ' ') ∈ stable_finals) :
    (res ≠ [] ∧ ∀ c ∈ res, pyIsSpace c = false) ∧
      (res = w ∨ pyLowerChar (res.getLastD ' ') ∈ stable_finals) := by
  rcases hres with h | ⟨pre, ls, us, hmem, ⟨rest, hrest⟩, heq⟩
  · subst h
    exact ⟨⟨hwne, hwsf⟩, Or.inl rfl⟩
  · obtain ⟨hls, hus, hlssf, hussf, hlst, hust⟩ := hpairs _ hmem
    by_cases hc : pyIsLowerChar (w.getLastD ' ') = true
    · rw [if_pos hc] at heq
      subst heq
      refine ⟨⟨List.append_ne_nil_of_right_ne_nil _ hls, ?_⟩, Or.inr ?_⟩
      · intro ch hcm
        rcases List.mem_append.mp hcm with h1 | h2
        · exact hwsf ch (by rw [← hrest]; exact List.mem_append_left _ h1)
        · exact hlssf ch h2
      · rw [getLastD_append_of_ne hls]
        exact hlst
    · rw [if_neg hc] at heq
      subst heq
      refine ⟨⟨List.append_ne_nil_of_right_ne_nil _ hus, ?_⟩, Or.inr ?_⟩
      · intro ch hcm
        rcases List.mem_append.mp hcm with h1 | h2
        · exact hwsf ch (by rw [← hrest]; exact List.mem_append_left _ h1)
        · exact hussf ch h2
      · rw [getLastD_append_of_ne hus]
        exact hust

theorem dative_first_name_idem {b : List Char} (hne : b ≠ [])
    (hsf : ∀ c ∈ b, pyIsSpace c = false) :
    dative_first_name (dative_first_name b) = dative_first_name b := by
  have hcase := dative_first_name_cased b
  rw [pyStrip_of_space_free hsf] at hcase
  rcases token_facts_of_cased hne hsf hcase (by decide) with
    ⟨⟨hrne, hrsf⟩, h | hst⟩
  · rw [h]
    exact h
  · exact dative_first_name_stable hrne hrsf hst

theorem dative_surname_idem {a : List Char} (hne : a ≠ [])
    (hsf : ∀ c ∈ a, pyIsSpace c = false) (g g2 : Option (List Char)) :
    dative_surname (dative_surname a g) g2 = dative_surname a g := by
  have hcase := dative_surname_cased a g
  rw [pyStrip_of_space_free hsf] at hcase
  rcases token_facts_of_cased hne hsf hcase (by decide) with
    ⟨⟨hrne, hrsf⟩, h | hst⟩
  · rw [h]
    have hgi : dative_surname a g2 = dative_surname a g := rfl
    rw [hgi]
    exact h
  · exact dative_surname_stable hrne hrsf hst g2

theorem dative_patronymic_idem {c : List Char} (hne : c ≠ [])
    (hsf : ∀ ch ∈ c, pyIsSpace ch = false) :
    dative_patronymic
        (dative_patronymic c (guess_gender_from_patronymic (some c)))
        (guess_gender_from_patronymic
          (some (dative_patronymic c
            (guess_gender_from_patronymic (some c))))) =
      dative_patronymic c (guess_gender_from_patronymic (some c)) := by
  have hcase :=
    dative_patronymic_cased c (guess_gender_from_patronymic (some c))
  rcases token_facts_of_cased hne hsf hcase (by decide) with
    ⟨⟨hrne, hrsf⟩, h | hst⟩
  · rw [h]
    exact h
  · exact dative_patronymic_stable hrne hrsf hst _

theorem to_dative_eq_cases (f : List Char) :
    to_dative_fullname f =
      match pySplit f with
      | [] => f
      | [b] => pyJoinSpace [dative_first_name b]
      | [a, b] => pyJoinSpace [dative_surname a none, dative_first_name b]
      | a :: b :: c :: _ =>
        pyJoinSpace
          [dative_surname a (guess_gender_from_patronymic (some c)),
           dative_first_name b,
           dative_patronymic c (guess_gender_from_patronymic (some c))] := by
  unfold to_dative_fullname to_dative_fullname_core
  rw [split_fullname_eq_pySplit f]
  cases h : pySplit f with
  | nil => simp [pyTruthy]
  | cons a l =>
    have ha := pySplit_tokens_shape a (by rw [h]; simp)
    have haE : a.isEmpty = false := by simpa using ha.1
    cases l with
    | nil =>
      simp [pyTruthy, haE, guess_gender_from_patronymic, pyJoinSpace]
    | cons b l2 =>
      have hb := pySplit_tokens_shape b (by rw [h]; simp)
      have hbE : b.isEmpty = false := by simpa using hb.1
      cases l2 with
      | nil =>
        simp [pyTruthy, haE, hbE, guess_gender_from_patronymic, pyJoinSpace]
      | cons c l3 =>
        have hc := pySplit_tokens_shape c (by rw [h]; simp)
        have hcE : c.isEmpty = false := by simpa using hc.1
        simp [pyTruthy, haE, hbE, hcE, pyJoinSpace]

theorem to_dative_fullname_idem_all (f : List Char) :
    to_dative_fullname (to_dative_fullname f) = to_dative_fullname f := by
  cases h : pySplit f with
  | nil =>
    have h0 : to_dative_fullname f = f := by rw [to_dative_eq_cases f, h]
    rw [h0]
    exact h0
  | cons a l =>
    have ha := pySplit_tokens_shape a (by rw [h]; simp)
    cases l with
    | nil =>
      have h0 : to_dative_fullname f = dative_first_name a := by
        rw [to_dative_eq_cases f, h]
        rfl
      have hcase := dative_first_name_cased a
      rw [pyStrip_of_space_free ha.2] at hcase
      obtain ⟨⟨hrne, hrsf⟩, _⟩ :=
        token_facts_of_cased ha.1 ha.2 hcase (by decide)
      have h1 : pySplit (dative_first_name a) = [dative_first_name a] := by
        have hj : pyJoinSpace [dative_first_name a] = dative_first_name a :=
          rfl
        rw [← hj]
        refine pySplit_join (by simp) ?_
        intro t ht
        rw [List.mem_singleton] at ht
        subst ht
        exact ⟨hrne, hrsf⟩
      rw [h0, to_dative_eq_cases (dative_first_name a), h1]
      show pyJoinSpace [dative_first_name (dative_first_name a)] =
        dative_first_name a
      rw [dative_first_name_idem ha.1 ha.2]
      rfl
    | cons b l2 =>
      have hb := pySplit_tokens_shape b (by rw [h]; simp)
      cases l2 with
      | nil =>
        have h0 : to_dative_fullname f =
            pyJoinSpace [dative_surname a none, dative_first_name b] := by
          rw [to_dative_eq_cases f, h]
        have hcaseA := dative_surname_cased a none
        rw [pyStrip_of_space_free ha.2] at hcaseA
        obtain ⟨⟨hs1ne, hs1sf⟩, _⟩ :=
          token_facts_of_cased ha.1 ha.2 hcaseA (by decide)
        have hcaseB := dative_first_name_cased b
        rw [pyStrip_of_space_free hb.2] at hcaseB
        obtain ⟨⟨hn1ne, hn1sf⟩, _⟩ :=
          token_facts_of_cased hb.1 hb.2 hcaseB (by decide)
        have h1 : pySplit
            (pyJoinSpace [dative_surname a none, dative_first_name b]) =
            [dative_surname a none, dative_first_name b] := by
          refine pySplit_join (by simp) ?_
          intro t ht
          rcases List.mem_cons.mp ht with h1 | h2
          · subst h1; exact ⟨hs1ne, hs1sf⟩
          · rw [List.mem_singleton] at h2; subst h2; exact ⟨hn1ne, hn1sf⟩
        rw [h0, to_dative_eq_cases _, h1]
        show pyJoinSpace
            [dative_surname (dative_surname a none) none,
             dative_first_name (dative_first_name b)] =
          pyJoinSpace [dative_surname a none, dative_first_name b]
        rw [dative_surname_idem ha.1 ha.2 none none,
          dative_first_name_idem hb.1 hb.2]
      | cons c l3 =>
        have hc := pySplit_tokens_shape c (by rw [h]; simp)
        have h0 : to_dative_fullname f =
            pyJoinSpace
              [dative_surname a (guess_gender_from_patronymic (some c)),
               dative_first_name b,
               dative_patronymic c
                 (guess_gender_from_patronymic (some c))] := by
          rw [to_dative_eq_cases f, h]
        have hcaseA :=
          dative_surname_cased a (guess_gender_from_patronymic (some c))
        rw [pyStrip_of_space_free ha.2] at hcaseA
        obtain ⟨⟨hs1ne, hs1sf⟩, _⟩ :=
          token_facts_of_cased ha.1 ha.2 hcaseA (by decide)
        have hcaseB := dative_first_name_cased b
        rw [pyStrip_of_space_free hb.2] at hcaseB
        obtain ⟨⟨hn1ne, hn1sf⟩, _⟩ :=
          token_facts_of_cased hb.1 hb.2 hcaseB (by decide)
        have hcaseC :=
          dative_patronymic_cased c (guess_gender_from_patronymic (some c))
        obtain ⟨⟨hp1ne, hp1sf⟩, _⟩ :=
          token_facts_of_cased hc.1 hc.2 hcaseC (by decide)
        have h1 : pySplit
            (pyJoinSpace
              [dative_surname a (guess_gender_from_patronymic (some c)),
               dative_first_name b,
               dative_patronymic c
                 (guess_gender_from_patronymic (some c))]) =
            [dative_surname a (guess_gender_from_patronymic (some c)),
             dative_first_name b,
             dative_patronymic c (guess_gender_from_patronymic (some c))] := by
          refine pySplit_join (by simp) ?_
          intro t ht
          rcases List.mem_cons.mp ht with h1 | ht2
          · subst h1; exact ⟨hs1ne, hs1sf⟩
          rcases List.mem_cons.mp ht2 with h2 | ht3
          · subst h2; exact ⟨hn1ne, hn1sf⟩
          rw [List.mem_singleton] at ht3
          subst ht3
          exact ⟨hp1ne, hp1sf⟩
        rw [h0, to_dative_eq_cases _, h1]
        show pyJoinSpace
            [dative_surname
              (dative_surname a (guess_gender_from_patronymic (some c)))
              (guess_gender_from_patronymic
                (some (dative_patronymic c
                  (guess_gender_from_patronymic (some c))))),
             dative_first_name (dative_first_name b),
             dative_patronymic
              (dative_patronymic c (guess_gender_from_patronymic (some c)))
              (guess_gender_from_patronymic
                (some (dative_patronymic c
                  (guess_gender_from_patronymic (some c)))))] =
          pyJoinSpace
            [dative_surname a (guess_gender_from_patronymic (some c)),
             dative_first_name b,
             dative_patronymic c (guess_gender_from_patronymic (some c))]
        rw [dative_surname_idem ha.1 ha.2, dative_first_name_idem hb.1 hb.2,
          dative_patronymic_idem hc.1 hc.2]

/-- Claim C9, counterexample: the claimed witness of non-idempotence does not
exist — there is no input string on which applying the engine to its own
output changes the string again. -/
theorem C9_no_non_idempotent_input :
    ¬ ∃ x : List Char,
        to_dative_fullname (to_dative_fullname x) ≠ to_dative_fullname x :=
  fun ⟨x, hx⟩ => hx (to_dative_fullname_idem_all x)

/-- Claim C9, amended: `to_dative_fullname` is idempotent — feeding the
engine's output back in returns it unchanged for every input.  The engine
still makes no attempt to re-detect already-inflected forms; its rules simply
happen to fix every string they produce (each fired rule leaves a final
"у"/"і"/"ї"/"ю", and such endings fire no rule). -/
theorem C9_engine_idempotent :
    ∀ x : List Char,
      to_dative_fullname (to_dative_fullname x) = to_dative_fullname x :=
  to_dative_fullname_idem_all
